import Mathlib

/-!
# Chat room hub and room registry

A shallow embedding of `internal/room/room.go`, `internal/room/management.go`
and the two pumps of `internal/chat/chat.go`.

* A `*Client` and a `*Room` are addresses (natural numbers); the objects they
  point to live in explicit stores.
* `Room.Clients` (`map[*Client]bool`, every stored value `true`) is the list of
  its keys, carried with the proof that no key occurs twice.  Go leaves the
  enumeration order of a map open; `range r.Clients` is read in list order, and
  `broadcast_perm` shows that a broadcast that completes gives the same result
  in every order.
* `Client.Send` is an unbuffered channel whose only receiver is `writePump`.
  A send is a hand-over to that receiver: it panics on a closed channel, never
  completes once the receiver has returned, and otherwise appends the message
  to what the pump has received.
* One iteration of the `select` in `Room.Run` is `Room.handle`; `Room.Run`
  feeds it a finite list of events, and stops where an iteration panics or
  blocks for ever.
* The sends of `readPump` on `r.Msg` and `r.Leave` are sends on unbuffered
  channels too: each completes when the hub receives it, and the pump is parked
  for ever in a send that the hub never receives.
-/

namespace Chatroom

/-! ## Data model (room.go, lines 8-26) -/

/-- Mirror of `type Message struct`. -/
structure Message where
  Author : String
  Content : String
deriving DecidableEq, Repr

/-- Address of a `Client` object. -/
abbrev ClientPtr := Nat

/-- Address of a `Room` object. -/
abbrev RoomPtr := Nat

/-- State of a `chan Message` made by `make(chan room.Message)` (capacity 0):
whether `close` has been called on it, and the messages it has handed to its
receiver so far, oldest first. -/
structure Chan where
  closed : Bool
  received : List Message
deriving DecidableEq, Repr

/-- Mirror of `type Client struct`, followed by the state of the connection
that `HandleConnection` pairs with the client: `pump` says that
`writePump(client, conn)` is still in its `range client.Send` loop, and `writes`
lists the results of the coming `conn.WriteJSON` calls (`true` for
`err == nil`; past the end of the list every write succeeds). -/
structure Client where
  ID : String
  NickName : String
  Send : Chan
  pump : Bool
  writes : List Bool
deriving DecidableEq, Repr

/-- The store of `Client` objects. -/
abbrev Heap := ClientPtr → Client

/-- Mirror of `type Room struct`: the code and the key set of `Clients`.  The
channels `Join`, `Leave` and `Msg` are the event input of `Room.Run`. -/
structure Room where
  Code : String
  Clients : List ClientPtr
  nodup : Clients.Nodup

/-- What arrives on one of the three channels a `Room` selects on. -/
inductive Event where
  | Join (client : ClientPtr)
  | Leave (client : ClientPtr)
  | Msg (msg : Message)
deriving DecidableEq, Repr

/-- How an iteration of the control loop ends: it completes (`running`), it
panics, or it blocks on a send that no goroutine will ever receive. -/
inductive Status where
  | running
  | panicked
  | blocked
deriving DecidableEq, Repr

/-- What a `Run` loop works on: its room and the clients it can reach. -/
structure Hub where
  room : Room
  heap : Heap

/-- Result of processing: the status and the state reached. -/
structure Outcome where
  status : Status
  hub : Hub

/-! ## room.go -/

/-- Mirror of `NewRoom`: the given code and an empty `Clients` map. -/
def NewRoom (code : String) : Room :=
  { Code := code, Clients := [], nodup := List.nodup_nil }

/-- One iteration of the loop body of `writePump` (chat.go, lines 56-62) on
the message just received: the message is written to the connection, and a
failed write breaks out of the loop. -/
def writePump (message : Message) (cl : Client) : Client :=
  match cl.writes with
  | [] => { cl with Send := { cl.Send with received := cl.Send.received ++ [message] } }
  | true :: ws =>
    { cl with Send := { cl.Send with received := cl.Send.received ++ [message] }, writes := ws }
  | false :: ws =>
    { cl with Send := { cl.Send with received := cl.Send.received ++ [message] },
              writes := ws, pump := false }

/-- The statement `client.Send <- msg` (room.go, line 56). -/
def sendTo (msg : Message) (cl : Client) : Status × Client :=
  if cl.Send.closed then (Status.panicked, cl)
  else if cl.pump then (Status.running, writePump msg cl)
  else (Status.blocked, cl)

/-- The statement `close(client.Send)` (room.go, line 51); the receiver's
`range` loop ends with it. -/
def closeSend (cl : Client) : Status × Client :=
  if cl.Send.closed then (Status.panicked, cl)
  else (Status.running, { cl with Send := { cl.Send with closed := true }, pump := false })

/-- The loop `for client := range r.Clients { client.Send <- msg }`
(room.go, lines 55-57) over the members still to be served. -/
def broadcast (msg : Message) : List ClientPtr → Heap → Status × Heap
  | [], heap => (Status.running, heap)
  | client :: rest, heap =>
    match sendTo msg (heap client) with
    | (Status.running, cl) => broadcast msg rest (Function.update heap client cl)
    | (st, _) => (st, heap)

/-- One iteration of the `select` of `Room.Run` (room.go, lines 40-58). -/
def Room.handle (s : Hub) : Event → Outcome
  | Event.Join client =>
    { status := Status.running,
      hub := { s with room := { s.room with Clients := s.room.Clients.insert client,
                                            nodup := s.room.nodup.insert } } }
  | Event.Leave client =>
    let room1 : Room := { s.room with Clients := s.room.Clients.erase client,
                                      nodup := s.room.nodup.erase client }
    match closeSend (s.heap client) with
    | (Status.running, cl) =>
      { status := Status.running,
        hub := { room := room1, heap := Function.update s.heap client cl } }
    | (st, _) => { status := st, hub := { room := room1, heap := s.heap } }
  | Event.Msg msg =>
    match broadcast msg s.room.Clients s.heap with
    | (st, heap1) => { status := st, hub := { s with heap := heap1 } }

/-- Mirror of `Room.Run` on the events that arrive, in the order in which the
loop takes them; nothing is processed after an iteration that did not complete. -/
def Room.Run (s : Hub) : List Event → Outcome
  | [] => { status := Status.running, hub := s }
  | e :: es =>
    match (Room.handle s e).status with
    | Status.running => Room.Run (Room.handle s e).hub es
    | _ => Room.handle s e

/-- A client as `HandleConnection` builds it (chat.go, lines 26-30): an open
`Send` that has carried nothing, its `writePump` started, on a connection with
the given write results. -/
def freshClient (addr : String) (writes : List Bool) : Client :=
  { ID := addr, NickName := "User_" ++ addr,
    Send := { closed := false, received := [] }, pump := true, writes := writes }

/-! ## chat.go: the inbound pump -/

/-- Result of one `conn.ReadJSON(&msg)`: a decoded message, or an error (a
failed read or a closed transport). -/
inductive ReadResult where
  | ok (msg : Message)
  | err
deriving DecidableEq, Repr

/-- What `readPump` has done to the outside, in order: a send on `r.Msg` or
`r.Leave` that the hub has received, and `conn.Close()`. -/
inductive PumpAction where
  | toHub (e : Event)
  | connClose
deriving DecidableEq, Repr

/-- Where `readPump` stands when nothing more happens: waiting in `ReadJSON`
for a result the transport has not given yet, parked for ever in a send that
the hub never receives, or returned. -/
inductive PumpState where
  | reading
  | parked (e : Event)
  | returned
deriving DecidableEq, Repr

/-- What a run of `readPump` amounts to: what it has done, and where it stands. -/
structure PumpRun where
  actions : List PumpAction
  state : PumpState
deriving DecidableEq, Repr

/-- The number of events, offered one after the other on the room's unbuffered
channels, that the `select` of `Room.Run` receives: the loop receives the next
event each time it comes back to the `select`, and never comes back from an
iteration that panics or blocks. -/
def Room.takes (s : Hub) : List Event → Nat
  | [] => 0
  | e :: es =>
    match (Room.handle s e).status with
    | Status.running => Room.takes (Room.handle s e).hub es + 1
    | _ => 1

/-- Mirror of `readPump` (chat.go, lines 37-51) on the results its reads give
and the number `takes` of its sends that the hub receives.  `r.Msg <- msg` and
`r.Leave <- client` are sends on unbuffered channels: each completes when the
hub receives it, and parks the pump for ever when the hub does not.  Each
decoded message is sent on `r.Msg`; the first error breaks out of the loop and
the deferred function sends the client on `r.Leave` and, once that send has
completed, closes the connection.  When the results run out the pump is waiting
in `ReadJSON`. -/
def readPump (client : ClientPtr) : List ReadResult → Nat → PumpRun
  | [], _ => { actions := [], state := PumpState.reading }
  | ReadResult.err :: _, 0 =>
    { actions := [], state := PumpState.parked (Event.Leave client) }
  | ReadResult.err :: _, _ + 1 =>
    { actions := [PumpAction.toHub (Event.Leave client), PumpAction.connClose],
      state := PumpState.returned }
  | ReadResult.ok msg :: _, 0 =>
    { actions := [], state := PumpState.parked (Event.Msg msg) }
  | ReadResult.ok msg :: rest, takes + 1 =>
    { actions := PumpAction.toHub (Event.Msg msg) :: (readPump client rest takes).actions,
      state := (readPump client rest takes).state }

/-! ## management.go -/

/-- The process state the registry and the hubs work on: the package variable
`rooms`, the `Room` objects allocated so far (a `*Room` is an index into
`store`), the rooms for which `go newRoom.Run()` has been executed (one entry
per started goroutine), and the clients. -/
structure World where
  rooms : String → Option RoomPtr
  store : List Room
  started : List RoomPtr
  heap : Heap

/-- The state at process start: `rooms = make(map[string]*Room)`, nothing allocated. -/
def World.init (heap : Heap) : World :=
  { rooms := fun _ => none, store := [], started := [], heap := heap }

/-- Mirror of `createRoom` (management.go, lines 23-35). -/
def createRoom (code : String) (w : World) : (RoomPtr × Bool) × World :=
  match w.rooms code with
  | some r => ((r, true), w)
  | none =>
    let newRoom : RoomPtr := w.store.length
    ((newRoom, false),
      { w with store := w.store ++ [NewRoom code],
               started := w.started ++ [newRoom],
               rooms := fun k => if k = code then some newRoom else w.rooms k })

/-- Mirror of `GetRoom` (management.go, lines 11-21), run without interruption. -/
def GetRoom (code : String) (w : World) : (RoomPtr × Bool) × World :=
  match w.rooms code with
  | some r => ((r, true), w)
  | none => createRoom code w

/-- The booleans returned by `n` calls of `GetRoom(code)` made one after the other. -/
def GetRoom.results (code : String) : Nat → World → List Bool
  | 0, _ => []
  | n + 1, w => (GetRoom code w).1.2 :: GetRoom.results code n (GetRoom code w).2

/-- The registry invariant: a registered pointer is allocated and points to a
room that carries the code it is registered under. -/
def World.WF (w : World) : Prop :=
  ∀ code r, w.rooms code = some r → ∃ room, w.store[r]? = some room ∧ room.Code = code

/-- The `Run` goroutine of the room at `r` takes one event. -/
def World.hubStep (r : RoomPtr) (e : Event) (w : World) : Status × World :=
  match w.store[r]? with
  | none => (Status.panicked, w)
  | some room =>
    let o := Room.handle { room := room, heap := w.heap } e
    (o.status, { w with store := w.store.set r o.hub.room, heap := o.hub.heap })

/-! ### Concurrent callers of `GetRoom` -/

/-- Where one caller of `GetRoom(code)` stands: before the locked lookup of
lines 12-14, after it with what it read, or returned with its results. -/
inductive Pc where
  | atLookup
  | looked (r : Option RoomPtr)
  | returned (r : RoomPtr) (found : Bool)
deriving DecidableEq, Repr

/-- The callers and the process state they share. -/
structure Conc where
  world : World
  pcs : List Pc

/-- Start of `n` concurrent calls. -/
def Conc.init (w : World) (n : Nat) : Conc :=
  { world := w, pcs := List.replicate n Pc.atLookup }

/-- Caller `i` takes its next step.  The mutex makes each locked section one
step: the lookup of `GetRoom`, then (outside the lock) the test of `exists`,
which on a miss enters `createRoom`, whose whole body runs under the lock. -/
def Conc.step (code : String) (s : Conc) (i : Nat) : Conc :=
  match s.pcs[i]? with
  | some Pc.atLookup => { s with pcs := s.pcs.set i (Pc.looked (s.world.rooms code)) }
  | some (Pc.looked (some r)) => { s with pcs := s.pcs.set i (Pc.returned r true) }
  | some (Pc.looked none) =>
    { world := (createRoom code s.world).2,
      pcs := s.pcs.set i (Pc.returned (createRoom code s.world).1.1 (createRoom code s.world).1.2) }
  | _ => s

/-- The callers run as the schedule says, one step at a time. -/
def Conc.run (code : String) (s : Conc) (sched : List Nat) : Conc :=
  sched.foldl (Conc.step code) s

/-- Every one of the callers has returned. -/
def Conc.allReturned (s : Conc) : Prop :=
  ∀ pc ∈ s.pcs, ∃ r found, pc = Pc.returned r found

/-- How far a caller has come: 0 before the lookup, 1 after it, 2 once returned. -/
def Pc.stage : Option Pc → Nat
  | some (Pc.looked _) => 1
  | some (Pc.returned _ _) => 2
  | _ => 0

/-- The invariant of concurrent calls of `GetRoom(code)` started on `w0`, where
the code is fresh: the process state is `w0` or `w0` after the one creation, and
a caller that holds a room pointer holds the created one, after the creation. -/
def Conc.Inv (code : String) (w0 : World) (s : Conc) : Prop :=
  (s.world = w0 ∨ s.world = (createRoom code w0).2) ∧
    ∀ pc ∈ s.pcs, ∀ r, (pc = Pc.looked (some r) ∨ ∃ found, pc = Pc.returned r found) →
      r = w0.store.length ∧ s.world = (createRoom code w0).2

/-! ## Words of the specification -/

/-- The last `Join` or `Leave` event naming `c` in `evs` is a `Join`. -/
def LastIsJoin (c : ClientPtr) (evs : List Event) : Prop :=
  ∃ before after, evs = before ++ Event.Join c :: after ∧
    Event.Join c ∉ after ∧ Event.Leave c ∉ after

/-- The messages of the `Msg` events of `evs` that are processed while `c` is a
member, in order; `member` says whether `c` is a member at the start. -/
def sentWhileMember (c : ClientPtr) : Bool → List Event → List Message
  | _, [] => []
  | member, Event.Join c1 :: es => sentWhileMember c (if c1 = c then true else member) es
  | member, Event.Leave c1 :: es => sentWhileMember c (if c1 = c then false else member) es
  | member, Event.Msg m :: es =>
    if member then m :: sentWhileMember c member es else sentWhileMember c member es

/-- The connection lifecycle on a sequence of hub events: every client handle
is joined at most once, left at most once, and left only after its join. -/
def Lifecycle (evs : List Event) : Prop :=
  (∀ c, evs.count (Event.Join c) ≤ 1) ∧ (∀ c, evs.count (Event.Leave c) ≤ 1) ∧
    ∀ c before after, evs = before ++ Event.Leave c :: after → Event.Join c ∈ before

/-! ## Example inputs -/

/-- A first message. -/
def hello : Message := { Author := "A", Content := "hi" }

/-- A second message. -/
def again : Message := { Author := "B", Content := "again" }

/-- Clients as `HandleConnection` builds them; the connection of client 1
fails on its first write, the others never fail. -/
def demoHeap : Heap := fun c =>
  if c = 1 then freshClient "10.0.0.1:4000" [false] else freshClient "10.0.0.2:4000" []

/-- Clients as `HandleConnection` builds them, on connections that never fail. -/
def soundHeap : Heap := fun _ => freshClient "10.0.0.2:4000" []

/-- The hub of room "r1" after client 1 has joined and one message has been
broadcast: client 1 is a member, and its pump returned on the failed write. -/
def stalledHub : Hub :=
  (Room.Run { room := NewRoom "r1", heap := demoHeap } [Event.Join 1, Event.Msg hello]).hub

/-- The hub of room "r1" after clients 1 and 2 have joined, both on
connections that never fail. -/
def pairHub : Hub :=
  (Room.Run { room := NewRoom "r1", heap := soundHeap } [Event.Join 1, Event.Join 2]).hub

/-- The process after `GetRoom("r1")` and `GetRoom("r2")`, with client 1
joined to room "r1" and client 2 joined to room "r2". -/
def twoRooms : World :=
  (World.hubStep 1 (Event.Join 2)
    (World.hubStep 0 (Event.Join 1)
      (GetRoom "r2" (GetRoom "r1" (World.init soundHeap)).2).2).2).2

/-- The hub of room "r1" after `Leave(1)` then `Join(1)`: client 1 is a member
and its channel is closed. -/
def closedMemberHub : Hub :=
  (Room.Run { room := NewRoom "r1", heap := soundHeap } [Event.Leave 1, Event.Join 1]).hub

/-! ## The hub: membership -/

theorem handle_Join_status (s : Hub) (c : ClientPtr) :
    (Room.handle s (Event.Join c)).status = Status.running := rfl

theorem handle_Join_clients (s : Hub) (c : ClientPtr) :
    (Room.handle s (Event.Join c)).hub.room.Clients = s.room.Clients.insert c := rfl

theorem handle_Join_heap (s : Hub) (c : ClientPtr) :
    (Room.handle s (Event.Join c)).hub.heap = s.heap := rfl

theorem handle_Leave_clients (s : Hub) (c : ClientPtr) :
    (Room.handle s (Event.Leave c)).hub.room.Clients = s.room.Clients.erase c := by
  simp only [Room.handle]
  split <;> rfl

theorem handle_Msg_room (s : Hub) (m : Message) :
    (Room.handle s (Event.Msg m)).hub.room = s.room := by
  simp only [Room.handle]

theorem handle_code (s : Hub) (e : Event) :
    (Room.handle s e).hub.room.Code = s.room.Code := by
  cases e with
  | Join c => rfl
  | Leave c => simp only [Room.handle]; split <;> rfl
  | Msg m => rw [handle_Msg_room]

theorem Run_nil (s : Hub) : Room.Run s [] = { status := Status.running, hub := s } := rfl

theorem Run_cons_running (s : Hub) (e : Event) (es : List Event)
    (h : (Room.handle s e).status = Status.running) :
    Room.Run s (e :: es) = Room.Run (Room.handle s e).hub es := by
  simp only [Room.Run, h]

theorem Run_cons_stopped (s : Hub) (e : Event) (es : List Event)
    (h : (Room.handle s e).status ≠ Status.running) :
    Room.Run s (e :: es) = Room.handle s e := by
  simp only [Room.Run]

theorem Run_cons_status (s : Hub) (e : Event) (es : List Event)
    (h : (Room.Run s (e :: es)).status = Status.running) :
    (Room.handle s e).status = Status.running := by
  by_contra hne
  rw [Run_cons_stopped s e es hne] at h
  exact hne h

theorem lastIsJoin_cons (c : ClientPtr) (e : Event) (es : List Event) :
    LastIsJoin c (e :: es) ↔
      LastIsJoin c es ∨ (e = Event.Join c ∧ Event.Join c ∉ es ∧ Event.Leave c ∉ es) := by
  constructor
  · rintro ⟨before, after, heq, h1, h2⟩
    cases before with
    | nil =>
      simp only [List.nil_append, List.cons.injEq] at heq
      obtain ⟨rfl, rfl⟩ := heq
      exact Or.inr ⟨rfl, h1, h2⟩
    | cons b bs =>
      simp only [List.cons_append, List.cons.injEq] at heq
      exact Or.inl ⟨bs, after, heq.2, h1, h2⟩
  · rintro (⟨before, after, heq, h1, h2⟩ | ⟨rfl, h1, h2⟩)
    · exact ⟨e :: before, after, by simp [heq], h1, h2⟩
    · exact ⟨[], es, rfl, h1, h2⟩

theorem lastIsJoin_nil (c : ClientPtr) : ¬ LastIsJoin c [] := by
  rintro ⟨before, after, heq, -, -⟩
  cases before <;> simp at heq

/-- Membership after a completed run from any state: the last event naming the
client is a join, or no event names it and it was a member at the start. -/
theorem Run_mem_iff (c : ClientPtr) (evs : List Event) :
    ∀ s : Hub, (Room.Run s evs).status = Status.running →
      (c ∈ (Room.Run s evs).hub.room.Clients ↔
        LastIsJoin c evs ∨
          (c ∈ s.room.Clients ∧ Event.Join c ∉ evs ∧ Event.Leave c ∉ evs)) := by
  induction evs with
  | nil =>
    intro s _
    simp [Run_nil, lastIsJoin_nil]
  | cons e es ih =>
    intro s h
    have hs := Run_cons_status s e es h
    rw [Run_cons_running s e es hs] at h ⊢
    rw [ih _ h, lastIsJoin_cons]
    cases e with
    | Join c1 =>
      rw [handle_Join_clients, List.mem_insert_iff]
      by_cases hc : c1 = c
      · subst hc; simp
      · have hc2 : c ≠ c1 := fun h => hc h.symm
        simp [hc, hc2]
    | Leave c1 =>
      rw [handle_Leave_clients, s.room.nodup.mem_erase_iff]
      by_cases hc : c1 = c
      · subst hc; simp
      · have hc2 : c ≠ c1 := fun h => hc h.symm
        simp [hc, hc2]
    | Msg m =>
      rw [handle_Msg_room]
      simp

/-- C1. When `Room.Run`, started on a room made by `NewRoom`, has processed a
finite sequence of Join/Leave/Msg events, a client is in `Clients` exactly when
the last Join or Leave event naming it in the sequence is a Join; and the
processing of a `Msg` event leaves the room, hence its membership, as it was,
however the send ends. -/
theorem membership_after_Run (code : String) (heap : Heap) (evs : List Event)
    (h : (Room.Run { room := NewRoom code, heap := heap } evs).status = Status.running) :
    (∀ c, c ∈ (Room.Run { room := NewRoom code, heap := heap } evs).hub.room.Clients ↔
        LastIsJoin c evs) ∧
      ∀ (s : Hub) (m : Message), (Room.handle s (Event.Msg m)).hub.room = s.room := by
  refine ⟨fun c => ?_, handle_Msg_room⟩
  rw [Run_mem_iff c evs _ h]
  simp [NewRoom]

/-! ## The hub: delivery -/

theorem writePump_received (m : Message) (cl : Client) :
    (writePump m cl).Send.received = cl.Send.received ++ [m] := by
  unfold writePump
  split <;> rfl

theorem writePump_closed (m : Message) (cl : Client) :
    (writePump m cl).Send.closed = cl.Send.closed := by
  unfold writePump
  split <;> rfl

theorem sendTo_running (m : Message) (cl : Client)
    (h1 : cl.Send.closed = false) (h2 : cl.pump = true) :
    sendTo m cl = (Status.running, writePump m cl) := by
  simp [sendTo, h1, h2]

theorem sendTo_running_inv (m : Message) (cl : Client)
    (h : (sendTo m cl).1 = Status.running) :
    sendTo m cl = (Status.running, writePump m cl) := by
  unfold sendTo at h ⊢
  split at h
  · cases h
  · split at h
    · rename_i h1 h2
      rw [if_neg h1, if_pos h2]
    · cases h

theorem sendTo_not_panicked (m : Message) (cl : Client) (h1 : cl.Send.closed = false) :
    (sendTo m cl).1 ≠ Status.panicked := by
  unfold sendTo
  rw [if_neg (by simp [h1])]
  split <;> simp

theorem sendTo_blocked (m : Message) (cl : Client)
    (h1 : cl.Send.closed = false) (h2 : cl.pump = false) :
    sendTo m cl = (Status.blocked, cl) := by
  simp [sendTo, h1, h2]

/-- The broadcast loop touches no client outside the list it ranges over. -/
theorem broadcast_frame (m : Message) (l : List ClientPtr) :
    ∀ (heap : Heap) (c : ClientPtr), c ∉ l → (broadcast m l heap).2 c = heap c := by
  induction l with
  | nil => intro heap c _; rfl
  | cons a l ih =>
    intro heap c hc
    have hca : c ≠ a := fun h => hc (h ▸ List.mem_cons_self _ _)
    have hcl : c ∉ l := fun h => hc (List.mem_cons_of_mem _ h)
    unfold broadcast
    split
    · rw [ih _ c hcl, Function.update_noteq hca]
    · rfl

/-- The broadcast loop never changes whether a channel is closed. -/
theorem broadcast_closed (m : Message) (l : List ClientPtr) :
    ∀ (heap : Heap) (c : ClientPtr),
      ((broadcast m l heap).2 c).Send.closed = (heap c).Send.closed := by
  induction l with
  | nil => intro heap c; rfl
  | cons a l ih =>
    intro heap c
    unfold broadcast
    split
    · rename_i cl heq
      rw [ih]
      by_cases hca : c = a
      · subst hca
        have h1 : (sendTo m (heap c)).1 = Status.running := by rw [heq]
        have h2 := sendTo_running_inv m (heap c) h1
        rw [heq] at h2
        have h3 : cl = writePump m (heap c) := (Prod.mk.inj h2).2
        rw [Function.update_same, h3, writePump_closed]
      · rw [Function.update_noteq hca]
    · rfl

/-- A broadcast loop that completes has handed the message to every client of
the list, once. -/
theorem broadcast_running (m : Message) (l : List ClientPtr) :
    ∀ heap : Heap, l.Nodup → (broadcast m l heap).1 = Status.running →
      ∀ c, (broadcast m l heap).2 c = if c ∈ l then writePump m (heap c) else heap c := by
  induction l with
  | nil => intro heap _ _ c; simp [broadcast]
  | cons a l ih =>
    intro heap hnd hrun c
    have hal : a ∉ l := (List.nodup_cons.mp hnd).1
    have hl : l.Nodup := (List.nodup_cons.mp hnd).2
    unfold broadcast at hrun ⊢
    split at hrun
    · rename_i cl heq
      have h1 : (sendTo m (heap a)).1 = Status.running := by rw [heq]
      have h2 := sendTo_running_inv m (heap a) h1
      rw [heq] at h2
      have h3 : cl = writePump m (heap a) := (Prod.mk.inj h2).2
      rw [ih _ hl hrun c]
      by_cases hca : c = a
      · subst hca
        simp [hal, h3]
      · by_cases hcl : c ∈ l
        · simp [hcl, hca, Function.update_noteq hca]
        · simp [hcl, hca, Function.update_noteq hca]
    · rename_i st x hne heq
      simp only [heq] at hrun
      exact absurd hrun (by simpa using hne)

/-- When every client of the list has an open channel and a live pump, the
broadcast loop completes. -/
theorem broadcast_completes (m : Message) (l : List ClientPtr) :
    ∀ heap : Heap, l.Nodup →
      (∀ c ∈ l, (heap c).Send.closed = false ∧ (heap c).pump = true) →
      (broadcast m l heap).1 = Status.running := by
  induction l with
  | nil => intro heap _ _; rfl
  | cons a l ih =>
    intro heap hnd hok
    have hal : a ∉ l := (List.nodup_cons.mp hnd).1
    have hl : l.Nodup := (List.nodup_cons.mp hnd).2
    have ha := hok a (List.mem_cons_self _ _)
    unfold broadcast
    rw [sendTo_running m (heap a) ha.1 ha.2]
    apply ih _ hl
    intro c hc
    have hca : c ≠ a := fun h => hal (h ▸ hc)
    rw [Function.update_noteq hca]
    exact hok c (List.mem_cons_of_mem _ hc)

theorem sendTo_running_iff (m : Message) (cl : Client) :
    (sendTo m cl).1 = Status.running ↔ cl.Send.closed = false ∧ cl.pump = true := by
  constructor
  · intro h
    unfold sendTo at h
    split at h
    · cases h
    · split at h
      · rename_i h1 h2
        exact ⟨by simpa using h1, h2⟩
      · cases h
  · rintro ⟨h1, h2⟩
    rw [sendTo_running m cl h1 h2]

/-- The broadcast loop completes exactly when every client of the list has an
open channel and a live pump. -/
theorem broadcast_running_iff (m : Message) (l : List ClientPtr) :
    ∀ heap : Heap, l.Nodup →
      ((broadcast m l heap).1 = Status.running ↔
        ∀ c ∈ l, (heap c).Send.closed = false ∧ (heap c).pump = true) := by
  intro heap hnd
  refine ⟨?_, broadcast_completes m l heap hnd⟩
  induction l generalizing heap with
  | nil => intro _ c hc; cases hc
  | cons a l ih =>
    intro hrun c hc
    have hal : a ∉ l := (List.nodup_cons.mp hnd).1
    have hl : l.Nodup := (List.nodup_cons.mp hnd).2
    unfold broadcast at hrun
    split at hrun
    · rename_i cl heq
      have h1 : (sendTo m (heap a)).1 = Status.running := by rw [heq]
      rcases List.mem_cons.mp hc with rfl | hc
      · exact (sendTo_running_iff m _).mp h1
      · have hca : c ≠ a := fun h => hal (h ▸ hc)
        have := ih _ hl hrun c hc
        rwa [Function.update_noteq hca] at this
    · rename_i st x hne heq
      simp only at hrun
      exact absurd hrun (by simpa using hne)

/-- The order in which `range` enumerates the members does not matter to a
broadcast that completes: in any other order it completes too, with the same
result. -/
theorem broadcast_perm (m : Message) (l1 l2 : List ClientPtr) (heap : Heap)
    (hp : l1.Perm l2) (hnd : l1.Nodup) (hrun : (broadcast m l1 heap).1 = Status.running) :
    (broadcast m l2 heap).1 = Status.running ∧
      ∀ c, (broadcast m l2 heap).2 c = (broadcast m l1 heap).2 c := by
  have hnd2 : l2.Nodup := hp.nodup_iff.mp hnd
  have hok := (broadcast_running_iff m l1 heap hnd).mp hrun
  have hrun2 : (broadcast m l2 heap).1 = Status.running :=
    (broadcast_running_iff m l2 heap hnd2).mpr (fun c hc => hok c (hp.mem_iff.mpr hc))
  refine ⟨hrun2, fun c => ?_⟩
  rw [broadcast_running m l2 heap hnd2 hrun2 c, broadcast_running m l1 heap hnd hrun c]
  by_cases hc : c ∈ l1
  · rw [if_pos hc, if_pos (hp.mem_iff.mp hc)]
  · rw [if_neg hc, if_neg (fun h => hc (hp.mem_iff.mpr h))]

/-- When every client of the list has an open channel, the broadcast loop does
not panic. -/
theorem broadcast_not_panicked (m : Message) (l : List ClientPtr) :
    ∀ heap : Heap, (∀ c ∈ l, (heap c).Send.closed = false) →
      (broadcast m l heap).1 ≠ Status.panicked := by
  induction l with
  | nil => intro heap _; simp [broadcast]
  | cons a l ih =>
    intro heap hok
    have ha := hok a (List.mem_cons_self _ _)
    unfold broadcast
    split
    · rename_i cl heq
      apply ih
      intro c hc
      have h1 : (sendTo m (heap a)).1 = Status.running := by rw [heq]
      have h2 := sendTo_running_inv m (heap a) h1
      rw [heq] at h2
      have h3 : cl = writePump m (heap a) := (Prod.mk.inj h2).2
      by_cases hca : c = a
      · subst hca
        rw [Function.update_same, h3, writePump_closed]
        exact ha
      · rw [Function.update_noteq hca]
        exact hok c (List.mem_cons_of_mem _ hc)
    · rename_i st x hne heq
      have h := sendTo_not_panicked m (heap a) ha
      rw [heq] at h
      exact h

/-- When some client of the list has an open channel whose pump has returned,
and no channel of the list is closed, the broadcast loop blocks. -/
theorem broadcast_blocks (m : Message) (l : List ClientPtr) :
    ∀ heap : Heap, l.Nodup → (∀ c ∈ l, (heap c).Send.closed = false) →
      (∃ c ∈ l, (heap c).pump = false) →
      (broadcast m l heap).1 = Status.blocked := by
  induction l with
  | nil => intro heap _ _ h; obtain ⟨c, hc, _⟩ := h; cases hc
  | cons a l ih =>
    intro heap hnd hok hstall
    have hal : a ∉ l := (List.nodup_cons.mp hnd).1
    have hl : l.Nodup := (List.nodup_cons.mp hnd).2
    have ha := hok a (List.mem_cons_self _ _)
    by_cases hp : (heap a).pump = true
    · unfold broadcast
      rw [sendTo_running m (heap a) ha hp]
      apply ih _ hl
      · intro c hc
        have hca : c ≠ a := fun h => hal (h ▸ hc)
        rw [Function.update_noteq hca]
        exact hok c (List.mem_cons_of_mem _ hc)
      · obtain ⟨c, hc, hcp⟩ := hstall
        rcases List.mem_cons.mp hc with rfl | hc
        · rw [hp] at hcp; cases hcp
        · have hca : c ≠ a := fun h => hal (h ▸ hc)
          exact ⟨c, hc, by rw [Function.update_noteq hca]; exact hcp⟩
    · have hp2 : (heap a).pump = false := by simpa using hp
      unfold broadcast
      rw [sendTo_blocked m (heap a) ha hp2]

theorem handle_Leave_received (s : Hub) (c1 c : ClientPtr) :
    ((Room.handle s (Event.Leave c1)).hub.heap c).Send.received = (s.heap c).Send.received := by
  simp only [Room.handle]
  split
  · rename_i cl heq
    by_cases hc : c = c1
    · subst hc
      unfold closeSend at heq
      split at heq
      · cases heq
      · have h3 := (Prod.mk.inj heq).2
        simp only [Function.update_same]
        rw [← h3]
    · simp only [Function.update_noteq hc]
  · rfl

theorem handle_Msg_status (s : Hub) (m : Message) :
    (Room.handle s (Event.Msg m)).status = (broadcast m s.room.Clients s.heap).1 := by
  simp only [Room.handle]

theorem handle_Msg_heap (s : Hub) (m : Message) :
    (Room.handle s (Event.Msg m)).hub.heap = (broadcast m s.room.Clients s.heap).2 := by
  simp only [Room.handle]

/-- What a client has received after a completed run: what it had received
before, then the messages broadcast while it was a member, in processing order. -/
theorem Run_received (c : ClientPtr) (evs : List Event) :
    ∀ s : Hub, (Room.Run s evs).status = Status.running →
      ((Room.Run s evs).hub.heap c).Send.received =
        (s.heap c).Send.received ++ sentWhileMember c (decide (c ∈ s.room.Clients)) evs := by
  induction evs with
  | nil => intro s _; simp [Run_nil, sentWhileMember]
  | cons e es ih =>
    intro s h
    have hs := Run_cons_status s e es h
    rw [Run_cons_running s e es hs] at h ⊢
    rw [ih _ h]
    cases e with
    | Join c1 =>
      rw [handle_Join_clients, handle_Join_heap]
      simp only [sentWhileMember, List.mem_insert_iff]
      by_cases hc : c1 = c
      · subst hc; simp
      · have hc2 : c ≠ c1 := fun h => hc h.symm
        simp [hc, hc2]
    | Leave c1 =>
      rw [handle_Leave_clients, handle_Leave_received]
      simp only [sentWhileMember, s.room.nodup.mem_erase_iff]
      by_cases hc : c1 = c
      · subst hc; simp
      · have hc2 : c ≠ c1 := fun h => hc h.symm
        simp [hc, hc2]
    | Msg m =>
      rw [handle_Msg_status] at hs
      rw [handle_Msg_room, handle_Msg_heap, broadcast_running m _ _ s.room.nodup hs c]
      by_cases hc : c ∈ s.room.Clients
      · simp [hc, sentWhileMember, writePump_received]
      · simp [hc, sentWhileMember]

/-- C2, as stated, fails.  In room "r1" client 1 is a member whose pump has
returned after a failed write (the state reached from `NewRoom` by its join and
one broadcast).  Processing the next `Msg` event does not complete: the send to
client 1 blocks, and client 1 has still received only the first message.  And in
the state reached by `Leave(1)`, `Join(1)`, where member 1 has a closed channel,
processing a `Msg` event panics and client 1 receives nothing. -/
theorem broadcast_undelivered_on_returned_pump :
    (1 ∈ stalledHub.room.Clients ∧
      (stalledHub.heap 1).Send.closed = false ∧ (stalledHub.heap 1).pump = false ∧
      (Room.handle stalledHub (Event.Msg again)).status = Status.blocked ∧
      ((Room.handle stalledHub (Event.Msg again)).hub.heap 1).Send.received = [hello] ∧
      ((Room.handle stalledHub (Event.Msg again)).hub.heap 1).Send.received ≠
        (stalledHub.heap 1).Send.received ++ [again]) ∧
    (1 ∈ closedMemberHub.room.Clients ∧ (closedMemberHub.heap 1).Send.closed = true ∧
      (Room.handle closedMemberHub (Event.Msg hello)).status = Status.panicked ∧
      ((Room.handle closedMemberHub (Event.Msg hello)).hub.heap 1).Send.received = []) := by
  decide

/-- C2, amended.  In a room state where every member has an open channel and
a pump that is still receiving, processing `Msg m` completes, leaves the room
as it was, appends `m` once to what each member has received, and leaves every
non-member untouched; and over any completed run, what a client has received
is what it had received before followed by the messages of the `Msg` events
processed while it was a member, in processing order. -/
theorem broadcast_delivery (s : Hub) (m : Message)
    (hok : ∀ c ∈ s.room.Clients, (s.heap c).Send.closed = false ∧ (s.heap c).pump = true) :
    (Room.handle s (Event.Msg m)).status = Status.running ∧
      (Room.handle s (Event.Msg m)).hub.room = s.room ∧
      (∀ c ∈ s.room.Clients,
        ((Room.handle s (Event.Msg m)).hub.heap c).Send.received =
          (s.heap c).Send.received ++ [m]) ∧
      (∀ c, c ∉ s.room.Clients → (Room.handle s (Event.Msg m)).hub.heap c = s.heap c) ∧
      ∀ (s0 : Hub) (evs : List Event) (c : ClientPtr),
        (Room.Run s0 evs).status = Status.running →
        ((Room.Run s0 evs).hub.heap c).Send.received =
          (s0.heap c).Send.received ++ sentWhileMember c (decide (c ∈ s0.room.Clients)) evs := by
  have hrun := broadcast_completes m s.room.Clients s.heap s.room.nodup hok
  refine ⟨by rw [handle_Msg_status]; exact hrun, handle_Msg_room s m, ?_, ?_, ?_⟩
  · intro c hc
    rw [handle_Msg_heap, broadcast_running m _ _ s.room.nodup hrun c, if_pos hc,
      writePump_received]
  · intro c hc
    rw [handle_Msg_heap, broadcast_frame m _ _ c hc]
  · intro s0 evs c h
    exact Run_received c evs s0 h

/-- Witness of `membership_after_Run`: two joins, a broadcast and a leave. -/
theorem membership_after_Run_witness :
    (Room.Run { room := NewRoom "r1", heap := soundHeap }
        [Event.Join 1, Event.Join 2, Event.Msg hello, Event.Leave 1]).status = Status.running ∧
      ((∀ c, c ∈ (Room.Run { room := NewRoom "r1", heap := soundHeap }
            [Event.Join 1, Event.Join 2, Event.Msg hello, Event.Leave 1]).hub.room.Clients ↔
          LastIsJoin c [Event.Join 1, Event.Join 2, Event.Msg hello, Event.Leave 1]) ∧
        ∀ (s : Hub) (m : Message), (Room.handle s (Event.Msg m)).hub.room = s.room) :=
  ⟨by decide, membership_after_Run "r1" soundHeap
    [Event.Join 1, Event.Join 2, Event.Msg hello, Event.Leave 1] (by decide)⟩

/-- Witness of `broadcast_delivery`: both members of the example room receive
the message. -/
theorem broadcast_delivery_witness :
    (∀ c ∈ pairHub.room.Clients,
        (pairHub.heap c).Send.closed = false ∧ (pairHub.heap c).pump = true) ∧
      (Room.handle pairHub (Event.Msg hello)).status = Status.running ∧
      ((Room.handle pairHub (Event.Msg hello)).hub.heap 2).Send.received =
        (pairHub.heap 2).Send.received ++ [hello] :=
  ⟨by decide, (broadcast_delivery pairHub hello (by decide)).1,
    (broadcast_delivery pairHub hello (by decide)).2.2.1 2 (by decide)⟩

/-! ## The hub: leaving -/

theorem Run_append (es1 es2 : List Event) :
    ∀ s : Hub, Room.Run s (es1 ++ es2) =
      if (Room.Run s es1).status = Status.running then Room.Run (Room.Run s es1).hub es2
      else Room.Run s es1 := by
  induction es1 with
  | nil => intro s; simp [Run_nil]
  | cons e es ih =>
    intro s
    by_cases h : (Room.handle s e).status = Status.running
    · rw [List.cons_append, Run_cons_running s e _ h, Run_cons_running s e _ h, ih]
    · rw [List.cons_append, Run_cons_stopped s e _ h, Run_cons_stopped s e _ h, if_neg h]

theorem Run_singleton (s : Hub) (e : Event) : Room.Run s [e] = Room.handle s e := by
  by_cases h : (Room.handle s e).status = Status.running
  · rw [Run_cons_running s e _ h, Run_nil]
    cases hh : Room.handle s e with
    | mk st hub => rw [hh] at h; simp only at h; subst h; rfl
  · rw [Run_cons_stopped s e _ h]

theorem Lifecycle.init (es : List Event) (e : Event) (h : Lifecycle (es ++ [e])) :
    Lifecycle es := by
  obtain ⟨h1, h2, h3⟩ := h
  refine ⟨fun c => ?_, fun c => ?_, fun c before after heq => ?_⟩
  · have := h1 c
    rw [List.count_append] at this
    omega
  · have := h2 c
    rw [List.count_append] at this
    omega
  · exact h3 c before (after ++ [e]) (by rw [heq]; simp)

theorem handle_Leave_status (s : Hub) (c : ClientPtr) (h : (s.heap c).Send.closed = false) :
    (Room.handle s (Event.Leave c)).status = Status.running := by
  simp [Room.handle, closeSend, h]

theorem handle_Leave_closed (s : Hub) (c1 c : ClientPtr)
    (h : ((Room.handle s (Event.Leave c1)).hub.heap c).Send.closed = true) :
    c = c1 ∨ (s.heap c).Send.closed = true := by
  by_cases hc : c = c1
  · exact Or.inl hc
  · right
    simp only [Room.handle] at h
    split at h
    · simpa [Function.update_noteq hc] using h
    · exact h

/-- The invariant of a run that respects the lifecycle: no panic, every member
has an open channel, and a channel found closed was closed before the run or
belongs to a client named by a `Leave` event. -/
theorem lifecycle_invariant (code : String) (heap : Heap) (evs : List Event) :
    Lifecycle evs → (∀ c, Event.Join c ∈ evs → (heap c).Send.closed = false) →
      (Room.Run { room := NewRoom code, heap := heap } evs).status ≠ Status.panicked ∧
      (∀ c ∈ (Room.Run { room := NewRoom code, heap := heap } evs).hub.room.Clients,
        ((Room.Run { room := NewRoom code, heap := heap } evs).hub.heap c).Send.closed = false) ∧
      (∀ c, ((Room.Run { room := NewRoom code, heap := heap } evs).hub.heap c).Send.closed = true →
        (heap c).Send.closed = true ∨ Event.Leave c ∈ evs) := by
  induction evs using List.reverseRecOn with
  | nil =>
    intro _ _
    refine ⟨by simp [Run_nil], ?_, ?_⟩
    · intro c hc; simp [Run_nil, NewRoom] at hc
    · intro c hc; exact Or.inl (by simpa [Run_nil] using hc)
  | append_singleton es e ih =>
    intro hlc hopen
    obtain ⟨i1, i2, i3⟩ := ih (Lifecycle.init es e hlc)
      (fun c hc => hopen c (List.mem_append_left _ hc))
    rw [Run_append]
    generalize Room.Run { room := NewRoom code, heap := heap } es = o at i1 i2 i3 ⊢
    by_cases hst : o.status = Status.running
    · rw [if_pos hst, Run_singleton]
      cases e with
      | Join c1 =>
        have hc1 : (o.hub.heap c1).Send.closed = false := by
          by_contra hcl
          have hcl2 : (o.hub.heap c1).Send.closed = true := by simpa using hcl
          rcases i3 c1 hcl2 with h0 | hl
          · rw [hopen c1 (by simp)] at h0; cases h0
          · obtain ⟨before, after, heq⟩ := List.append_of_mem hl
            have hj : Event.Join c1 ∈ before :=
              hlc.2.2 c1 before (after ++ [Event.Join c1]) (by rw [heq]; simp)
            have hj2 : Event.Join c1 ∈ es := by rw [heq]; exact List.mem_append_left _ hj
            have hcount := hlc.1 c1
            rw [List.count_append, List.count_singleton_self] at hcount
            have := List.count_pos_iff.mpr hj2
            omega
        refine ⟨by simp [handle_Join_status], ?_, ?_⟩
        · intro c hc
          rw [handle_Join_clients, List.mem_insert_iff] at hc
          rw [handle_Join_heap]
          rcases hc with rfl | hc
          · exact hc1
          · exact i2 c hc
        · intro c hc
          rw [handle_Join_heap] at hc
          rcases i3 c hc with h0 | hl
          · exact Or.inl h0
          · exact Or.inr (List.mem_append_left _ hl)
      | Leave c1 =>
        have hj : Event.Join c1 ∈ es := hlc.2.2 c1 es [] rfl
        have hnl : Event.Leave c1 ∉ es := by
          intro hl
          have hcount := hlc.2.1 c1
          rw [List.count_append, List.count_singleton_self] at hcount
          have := List.count_pos_iff.mpr hl
          omega
        have hc1 : (o.hub.heap c1).Send.closed = false := by
          by_contra hcl
          have hcl2 : (o.hub.heap c1).Send.closed = true := by simpa using hcl
          rcases i3 c1 hcl2 with h0 | hl
          · rw [hopen c1 (List.mem_append_left _ hj)] at h0; cases h0
          · exact hnl hl
        refine ⟨by simp [handle_Leave_status o.hub c1 hc1], ?_, ?_⟩
        · intro c hc
          rw [handle_Leave_clients, o.hub.room.nodup.mem_erase_iff] at hc
          by_contra hcl
          have hcl2 : ((Room.handle o.hub (Event.Leave c1)).hub.heap c).Send.closed = true := by
            simpa using hcl
          rcases handle_Leave_closed o.hub c1 c hcl2 with h | h
          · exact hc.1 h
          · rw [i2 c hc.2] at h; cases h
        · intro c hc
          rcases handle_Leave_closed o.hub c1 c hc with h | h
          · exact Or.inr (by simp [h])
          · rcases i3 c h with h0 | hl
            · exact Or.inl h0
            · exact Or.inr (List.mem_append_left _ hl)
      | Msg m =>
        refine ⟨?_, ?_, ?_⟩
        · rw [handle_Msg_status]
          exact broadcast_not_panicked m _ _ i2
        · intro c hc
          rw [handle_Msg_room] at hc
          rw [handle_Msg_heap, broadcast_closed]
          exact i2 c hc
        · intro c hc
          rw [handle_Msg_heap, broadcast_closed] at hc
          rcases i3 c hc with h0 | hl
          · exact Or.inl h0
          · exact Or.inr (List.mem_append_left _ hl)
    · rw [if_neg hst]
      refine ⟨i1, i2, ?_⟩
      intro c hc
      rcases i3 c hc with h0 | hl
      · exact Or.inl h0
      · exact Or.inr (List.mem_append_left _ hl)

theorem Lifecycle.left (es1 es2 : List Event) (h : Lifecycle (es1 ++ es2)) : Lifecycle es1 := by
  obtain ⟨h1, h2, h3⟩ := h
  refine ⟨fun c => ?_, fun c => ?_, fun c before after heq => ?_⟩
  · have := h1 c
    rw [List.count_append] at this
    omega
  · have := h2 c
    rw [List.count_append] at this
    omega
  · exact h3 c before (after ++ es2) (by rw [heq]; simp)

/-- The example sequence join, broadcast, leave respects the lifecycle. -/
theorem lifecycle_example : Lifecycle [Event.Join 1, Event.Msg hello, Event.Leave 1] := by
  refine ⟨fun c => ?_, fun c => ?_, fun c before after heq => ?_⟩
  · by_cases h : 1 = c
    · subst h; decide
    · simp [List.count_cons, h]
  · by_cases h : 1 = c
    · subst h; decide
    · simp [List.count_cons, h]
  · rcases before with _ | ⟨b1, _ | ⟨b2, _ | ⟨b3, _ | ⟨b4, bs⟩⟩⟩⟩ <;> simp at heq ⊢
    · obtain ⟨rfl, rfl, rfl, -⟩ := heq
      simp

/-- C6. Along every sequence of events that respects the connection lifecycle
and joins only clients whose channel is open, in the state reached after any
initial part of the sequence: the run has not panicked (a second `close` of a
channel and a send on a closed channel are the two panics of the loop, so no
channel was closed twice and no broadcast sent on a closed channel), every
current member has an open channel, and a channel that was open at the start and
is now closed belongs to a client named by a `Leave` event of that part and no
longer in `Clients`. -/
theorem lifecycle_queue_closed_once (code : String) (heap : Heap) (done rest : List Event)
    (hlc : Lifecycle (done ++ rest))
    (hopen : ∀ c, Event.Join c ∈ done ++ rest → (heap c).Send.closed = false) :
    (Room.Run { room := NewRoom code, heap := heap } done).status ≠ Status.panicked ∧
      (∀ c ∈ (Room.Run { room := NewRoom code, heap := heap } done).hub.room.Clients,
        ((Room.Run { room := NewRoom code, heap := heap } done).hub.heap c).Send.closed = false) ∧
      (∀ c, (heap c).Send.closed = false →
        ((Room.Run { room := NewRoom code, heap := heap } done).hub.heap c).Send.closed = true →
        Event.Leave c ∈ done ∧
          c ∉ (Room.Run { room := NewRoom code, heap := heap } done).hub.room.Clients) := by
  obtain ⟨i1, i2, i3⟩ := lifecycle_invariant code heap done (Lifecycle.left done rest hlc)
    (fun c hc => hopen c (List.mem_append_left _ hc))
  refine ⟨i1, i2, fun c h0 hc => ⟨?_, fun hmem => ?_⟩⟩
  · rcases i3 c hc with h | h
    · rw [h0] at h; cases h
    · exact h
  · rw [i2 c hmem] at hc; cases hc

/-- Witness of `lifecycle_queue_closed_once`: join, broadcast, leave. -/
theorem lifecycle_queue_closed_once_witness :
    Lifecycle ([Event.Join 1, Event.Msg hello, Event.Leave 1] ++ []) ∧
      (∀ c, Event.Join c ∈ [Event.Join 1, Event.Msg hello, Event.Leave 1] ++ [] →
        (soundHeap c).Send.closed = false) ∧
      (Room.Run { room := NewRoom "r1", heap := soundHeap }
        [Event.Join 1, Event.Msg hello, Event.Leave 1]).status ≠ Status.panicked :=
  ⟨lifecycle_example, fun _ _ => rfl,
    (lifecycle_queue_closed_once "r1" soundHeap [Event.Join 1, Event.Msg hello, Event.Leave 1] []
      lifecycle_example (fun _ _ => rfl)).1⟩

/-! ## The hub: backpressure -/

/-- C9. A hub whose room has a member with a returned pump, and no member with
a closed channel, cannot finish a broadcast: the run blocks in the `Msg`
iteration, processes none of the events behind it, and leaves the room as it
was.  Such a state is reachable from `NewRoom` by a run that respects the
lifecycle, over clients built as `HandleConnection` builds them: one write
failure on a member's connection produces it. -/
theorem backpressure_stall :
    (∀ (s : Hub) (c : ClientPtr) (m : Message) (rest : List Event),
      c ∈ s.room.Clients → (s.heap c).pump = false →
      (∀ c1 ∈ s.room.Clients, (s.heap c1).Send.closed = false) →
        (Room.Run s (Event.Msg m :: rest)).status = Status.blocked ∧
        Room.Run s (Event.Msg m :: rest) = Room.handle s (Event.Msg m) ∧
        (Room.Run s (Event.Msg m :: rest)).hub.room = s.room) ∧
    ∃ (heap : Heap) (evs : List Event) (c : ClientPtr),
      (∀ p, ∃ addr writes, heap p = freshClient addr writes) ∧ Lifecycle evs ∧
      (Room.Run { room := NewRoom "r1", heap := heap } evs).status = Status.running ∧
      c ∈ (Room.Run { room := NewRoom "r1", heap := heap } evs).hub.room.Clients ∧
      ((Room.Run { room := NewRoom "r1", heap := heap } evs).hub.heap c).pump = false ∧
      ∀ c1 ∈ (Room.Run { room := NewRoom "r1", heap := heap } evs).hub.room.Clients,
        ((Room.Run { room := NewRoom "r1", heap := heap } evs).hub.heap c1).Send.closed = false := by
  constructor
  · intro s c m rest hmem hpump hopen
    have hb : (Room.handle s (Event.Msg m)).status = Status.blocked := by
      rw [handle_Msg_status]
      exact broadcast_blocks m _ _ s.room.nodup hopen ⟨c, hmem, hpump⟩
    have hne : (Room.handle s (Event.Msg m)).status ≠ Status.running := by
      rw [hb]; decide
    rw [Run_cons_stopped s _ rest hne]
    exact ⟨hb, rfl, handle_Msg_room s m⟩
  · refine ⟨demoHeap, [Event.Join 1, Event.Msg hello], 1, ?_, ?_, by decide, by decide,
      by decide, by decide⟩
    · intro p
      unfold demoHeap
      split
      · exact ⟨_, _, rfl⟩
      · exact ⟨_, _, rfl⟩
    · refine ⟨fun c => ?_, fun c => ?_, fun c before after heq => ?_⟩
      · by_cases h : 1 = c
        · subst h; decide
        · simp [List.count_cons, h]
      · simp [List.count_cons]
      · rcases before with _ | ⟨b1, _ | ⟨b2, _ | ⟨b3, bs⟩⟩⟩ <;> simp at heq

/-! ## The inbound pump -/

theorem readPump_ok_taken (client : ClientPtr) (ms : List Message) (later : List ReadResult) :
    ∀ takes, ms.length ≤ takes →
      (readPump client (ms.map ReadResult.ok ++ later) takes).actions =
          ms.map (fun m => PumpAction.toHub (Event.Msg m)) ++
            (readPump client later (takes - ms.length)).actions ∧
        (readPump client (ms.map ReadResult.ok ++ later) takes).state =
          (readPump client later (takes - ms.length)).state := by
  induction ms with
  | nil => intro takes _; simp
  | cons m ms ih =>
    intro takes h
    cases takes with
    | zero => simp at h
    | succ n =>
      have hn : ms.length ≤ n := by simpa using h
      obtain ⟨h1, h2⟩ := ih n hn
      simp only [List.map_cons, List.cons_append, List.length_cons, Nat.add_sub_add_right]
      exact ⟨congrArg (List.cons (PumpAction.toHub (Event.Msg m))) h1, h2⟩

/-- When the hub receives only `n` of the sends, `n` at most the number of
messages read, the pump has sent the first `n` messages and is parked in the
next send. -/
theorem readPump_parked (client : ClientPtr) (ms : List Message) (later : List ReadResult) :
    ∀ n, n ≤ ms.length →
      (readPump client (ms.map ReadResult.ok ++ ReadResult.err :: later) n).actions =
          (ms.take n).map (fun m => PumpAction.toHub (Event.Msg m)) ∧
        ∃ e, (ms.map Event.Msg ++ [Event.Leave client])[n]? = some e ∧
          (readPump client (ms.map ReadResult.ok ++ ReadResult.err :: later) n).state =
            PumpState.parked e := by
  induction ms with
  | nil =>
    intro n h
    have hn : n = 0 := by simpa using h
    subst hn
    exact ⟨rfl, Event.Leave client, rfl, rfl⟩
  | cons m ms ih =>
    intro n h
    cases n with
    | zero => exact ⟨rfl, Event.Msg m, by simp, rfl⟩
    | succ k =>
      have hk : k ≤ ms.length := by simpa using h
      obtain ⟨h1, e, h2, h3⟩ := ih k hk
      refine ⟨?_, e, ?_, ?_⟩
      · simp only [List.map_cons, List.cons_append, List.take_succ_cons]
        exact congrArg (List.cons (PumpAction.toHub (Event.Msg m))) h1
      · simpa using h2
      · simp only [List.map_cons, List.cons_append]
        exact h3

/-- A pump that has returned has sent `Leave(client)` exactly once, and has
closed the connection. -/
theorem readPump_returned (client : ClientPtr) (reads : List ReadResult) :
    ∀ takes, (readPump client reads takes).state = PumpState.returned →
      (readPump client reads takes).actions.count (PumpAction.toHub (Event.Leave client)) = 1 ∧
        PumpAction.connClose ∈ (readPump client reads takes).actions := by
  induction reads with
  | nil => intro takes h; simp [readPump] at h
  | cons r rest ih =>
    intro takes h
    cases r with
    | err =>
      cases takes with
      | zero => simp [readPump] at h
      | succ n => simp [readPump, List.count_cons]
    | ok m =>
      cases takes with
      | zero => simp [readPump] at h
      | succ n =>
        simp only [readPump] at h ⊢
        obtain ⟨h1, h2⟩ := ih n h
        refine ⟨?_, List.mem_cons_of_mem _ h2⟩
        rw [List.count_cons, h1]
        simp

/-- C8, as stated, fails.  Client 1 is the member of the stalled room whose
`writePump` has returned.  Its `readPump` reads one message and then an error.
The hub receives the message and blocks in the broadcast, so it receives one
event and no more; the pump is then parked for ever in the deferred send on
`r.Leave`: the `Leave` is never received and `conn.Close()` never runs.  On a hub
that receives nothing, the pump that reads an error at once is parked the same
way. -/
theorem readPump_parks_on_stalled_hub :
    Room.takes stalledHub [Event.Msg again, Event.Leave 1] = 1 ∧
      readPump 1 [ReadResult.ok again, ReadResult.err]
          (Room.takes stalledHub [Event.Msg again, Event.Leave 1]) =
        { actions := [PumpAction.toHub (Event.Msg again)],
          state := PumpState.parked (Event.Leave 1) } ∧
      PumpAction.connClose ∉ (readPump 1 [ReadResult.ok again, ReadResult.err]
          (Room.takes stalledHub [Event.Msg again, Event.Leave 1])).actions ∧
      readPump 1 [ReadResult.err] 0 =
        { actions := [], state := PumpState.parked (Event.Leave 1) } := by
  decide

/-- C8, amended.  On read results that are the decoded messages `ms` followed
by an error, whatever the transport would give after it: when the hub receives
all the sends of the pump (more than `ms.length` of them), the hub has received
exactly `Msg` for each message of `ms` in order and then `Leave(client)` once,
the pump has then closed the connection and returned, and nothing read after
the error is forwarded.  When the hub receives only `n ≤ ms.length` sends, the
pump has sent the first `n` messages and is parked in the next send, without
closing the connection.  On whatever read results, a pump that has returned has
sent `Leave(client)` exactly once and closed the connection; and as long as no
read has failed the pump has sent the messages read and no `Leave`. -/
theorem readPump_events (client : ClientPtr) (ms : List Message) (later : List ReadResult)
    (takes : Nat) (htakes : ms.length < takes) :
    readPump client (ms.map ReadResult.ok ++ ReadResult.err :: later) takes =
        { actions := ms.map (fun m => PumpAction.toHub (Event.Msg m)) ++
            [PumpAction.toHub (Event.Leave client), PumpAction.connClose],
          state := PumpState.returned } ∧
      (∀ n, n ≤ ms.length →
        (readPump client (ms.map ReadResult.ok ++ ReadResult.err :: later) n).actions =
            (ms.take n).map (fun m => PumpAction.toHub (Event.Msg m)) ∧
          ∃ e, (ms.map Event.Msg ++ [Event.Leave client])[n]? = some e ∧
            (readPump client (ms.map ReadResult.ok ++ ReadResult.err :: later) n).state =
              PumpState.parked e) ∧
      (∀ (reads : List ReadResult) (n : Nat),
        (readPump client reads n).state = PumpState.returned →
          (readPump client reads n).actions.count (PumpAction.toHub (Event.Leave client)) = 1 ∧
            PumpAction.connClose ∈ (readPump client reads n).actions) ∧
      readPump client (ms.map ReadResult.ok) takes =
        { actions := ms.map (fun m => PumpAction.toHub (Event.Msg m)),
          state := PumpState.reading } := by
  have hle : ms.length ≤ takes := Nat.le_of_lt htakes
  obtain ⟨a1, a2⟩ := readPump_ok_taken client ms (ReadResult.err :: later) takes hle
  obtain ⟨b1, b2⟩ := readPump_ok_taken client ms [] takes hle
  obtain ⟨k, hk⟩ : ∃ k, takes - ms.length = k + 1 := ⟨takes - ms.length - 1, by omega⟩
  rw [hk] at a1 a2
  simp only [readPump, List.append_nil] at a1 a2 b1 b2
  refine ⟨?_, readPump_parked client ms later, readPump_returned client, ?_⟩
  · cases hr : readPump client (ms.map ReadResult.ok ++ ReadResult.err :: later) takes with
    | mk acts st =>
      rw [hr] at a1 a2
      simp only at a1 a2
      rw [a1, a2]
  · cases hr : readPump client (ms.map ReadResult.ok) takes with
    | mk acts st =>
      rw [hr] at b1 b2
      simp only at b1 b2
      rw [b1, b2]

/-- Witness of `readPump_events`: two messages, then an error, on a hub that
receives three sends. -/
theorem readPump_events_witness :
    [hello, again].length < 3 ∧
      readPump 1 ([hello, again].map ReadResult.ok ++ ReadResult.err :: [ReadResult.ok hello]) 3 =
        { actions := [hello, again].map (fun m => PumpAction.toHub (Event.Msg m)) ++
            [PumpAction.toHub (Event.Leave 1), PumpAction.connClose],
          state := PumpState.returned } :=
  ⟨by decide, (readPump_events 1 [hello, again] [ReadResult.ok hello] 3 (by decide)).1⟩

/-! ## The registry -/

theorem World.WF_init (heap : Heap) : (World.init heap).WF := by
  intro code r h
  cases h

theorem createRoom_miss (code : String) (w : World) (h : w.rooms code = none) :
    createRoom code w = ((w.store.length, false),
      { w with store := w.store ++ [NewRoom code],
               started := w.started ++ [w.store.length],
               rooms := fun k => if k = code then some w.store.length else w.rooms k }) := by
  simp only [createRoom, h]

theorem createRoom_hit (code : String) (w : World) (r : RoomPtr) (h : w.rooms code = some r) :
    createRoom code w = ((r, true), w) := by
  simp only [createRoom, h]

theorem GetRoom_hit (code : String) (w : World) (r : RoomPtr) (h : w.rooms code = some r) :
    GetRoom code w = ((r, true), w) := by
  simp only [GetRoom, h]

theorem GetRoom_miss (code : String) (w : World) (h : w.rooms code = none) :
    GetRoom code w = ((w.store.length, false),
      { w with store := w.store ++ [NewRoom code],
               started := w.started ++ [w.store.length],
               rooms := fun k => if k = code then some w.store.length else w.rooms k }) := by
  simp only [GetRoom, h, createRoom_miss code w h]

theorem GetRoom_rooms (code : String) (w : World) :
    (GetRoom code w).2.rooms code = some (GetRoom code w).1.1 := by
  cases h : w.rooms code with
  | none => rw [GetRoom_miss code w h]; simp
  | some r => rw [GetRoom_hit code w r h]; exact h

theorem GetRoom_WF (code : String) (w : World) (hwf : w.WF) : (GetRoom code w).2.WF := by
  cases h : w.rooms code with
  | some r => rw [GetRoom_hit code w r h]; exact hwf
  | none =>
    rw [GetRoom_miss code w h]
    intro k r hk
    simp only at hk
    by_cases hkc : k = code
    · subst hkc
      simp only [if_true, Option.some.injEq] at hk
      subst hk
      exact ⟨NewRoom k, by simp, rfl⟩
    · rw [if_neg hkc] at hk
      obtain ⟨room, h1, h2⟩ := hwf k r hk
      have hlt : r < w.store.length := by
        by_contra hge
        rw [List.getElem?_eq_none (Nat.le_of_not_lt hge)] at h1
        cases h1
      exact ⟨room, by simp only; rw [List.getElem?_append_left hlt]; exact h1, h2⟩

/-- C4. On a well-formed registry, for every code, `GetRoom` returns a pointer
to an allocated room that carries the code.  On a hit the pointer is the
registered one and nothing changes.  On a miss the pointer is a fresh address,
the room stored there is `NewRoom code` (no members), its `Run` loop is the one
loop started, the registry maps the code to it, every other code is mapped as
before, and the rooms already allocated and the clients are as before.  In both
cases a further `GetRoom` of the same code returns the same pointer and changes
nothing, and the registry stays well formed. -/
theorem GetRoom_resolves (code : String) (w : World) (hwf : w.WF) :
    (∃ room, (GetRoom code w).2.store[(GetRoom code w).1.1]? = some room ∧
        room.Code = code) ∧
      (∀ r, w.rooms code = some r → (GetRoom code w).1.1 = r ∧ (GetRoom code w).2 = w) ∧
      (w.rooms code = none →
        (GetRoom code w).1.1 = w.store.length ∧
        (GetRoom code w).2.store = w.store ++ [NewRoom code] ∧
        (NewRoom code).Clients = [] ∧
        (GetRoom code w).2.started = w.started ++ [(GetRoom code w).1.1] ∧
        (GetRoom code w).2.rooms code = some (GetRoom code w).1.1 ∧
        (∀ k, k ≠ code → (GetRoom code w).2.rooms k = w.rooms k) ∧
        (GetRoom code w).2.heap = w.heap) ∧
      GetRoom code (GetRoom code w).2 = (((GetRoom code w).1.1, true), (GetRoom code w).2) ∧
      (GetRoom code w).2.WF := by
  refine ⟨?_, ?_, ?_, ?_, GetRoom_WF code w hwf⟩
  · exact GetRoom_WF code w hwf code _ (GetRoom_rooms code w)
  · intro r h
    rw [GetRoom_hit code w r h]
    exact ⟨rfl, rfl⟩
  · intro h
    rw [GetRoom_miss code w h]
    refine ⟨rfl, rfl, rfl, rfl, by simp, ?_, rfl⟩
    intro k hk
    simp [hk]
  · exact GetRoom_hit code _ _ (GetRoom_rooms code w)

/-- Witness of `GetRoom_resolves`: the empty code on the registry at process start. -/
theorem GetRoom_resolves_witness :
    (World.init soundHeap).WF ∧
      ∃ room, (GetRoom "" (World.init soundHeap)).2.store[
          (GetRoom "" (World.init soundHeap)).1.1]? = some room ∧ room.Code = "" :=
  ⟨World.WF_init soundHeap, (GetRoom_resolves "" (World.init soundHeap) (World.WF_init soundHeap)).1⟩

/-- A step of a hub keeps the registry well formed: it writes back its own room,
under the code the room had. -/
theorem World.WF_hubStep (r : RoomPtr) (e : Event) (w : World) (hwf : w.WF) :
    (World.hubStep r e w).2.WF := by
  unfold World.hubStep
  split
  · exact hwf
  · rename_i room hroom
    intro k p hk
    obtain ⟨room1, h1, h2⟩ := hwf k p hk
    by_cases hp : r = p
    · subst hp
      have hlt : r < w.store.length := by
        by_contra hge
        rw [List.getElem?_eq_none (Nat.le_of_not_lt hge)] at h1
        cases h1
      rw [hroom] at h1
      have h3 : room = room1 := by injection h1
      subst h3
      exact ⟨_, by simp only; rw [List.getElem?_set_self hlt], by rw [handle_code]; exact h2⟩
    · exact ⟨room1, by simp only; rw [List.getElem?_set_ne hp]; exact h1, h2⟩

theorem GetRoom_found_iff (code : String) (w : World) :
    (GetRoom code w).1.2 = (w.rooms code).isSome := by
  cases h : w.rooms code with
  | none => rw [GetRoom_miss code w h]; rfl
  | some r => rw [GetRoom_hit code w r h]; rfl

theorem GetRoom_results_hit (code : String) (n : Nat) (w : World) (r : RoomPtr)
    (h : w.rooms code = some r) : GetRoom.results code n w = List.replicate n true := by
  induction n with
  | zero => rfl
  | succ n ih =>
    simp only [GetRoom.results, GetRoom_hit code w r h, List.replicate_succ]
    rw [ih]

/-- C10. The boolean `GetRoom(code)` returns is true exactly when the registry
held a room for the code before the call; hence of any number of calls made one
after the other with the same code, the first returns whether the code was
registered before (false on a fresh code) and every later one returns true. -/
theorem GetRoom_found (code : String) (w : World) (n : Nat) :
    ((GetRoom code w).1.2 = true ↔ ∃ r, w.rooms code = some r) ∧
      GetRoom.results code (n + 1) w = (w.rooms code).isSome :: List.replicate n true := by
  constructor
  · rw [GetRoom_found_iff, Option.isSome_iff_exists]
  · simp only [GetRoom.results, GetRoom_found_iff]
    rw [GetRoom_results_hit code n _ _ (GetRoom_rooms code w)]

/-! ## Rooms do not interfere -/

theorem hubStep_store_other (r r2 : RoomPtr) (e : Event) (w : World) (hne : r ≠ r2) :
    (World.hubStep r e w).2.store[r2]? = w.store[r2]? := by
  unfold World.hubStep
  split
  · rfl
  · simp only
    rw [List.getElem?_set_ne hne]

theorem hubStep_Msg_heap (r : RoomPtr) (m : Message) (w : World) (room : Room)
    (h : w.store[r]? = some room) :
    (World.hubStep r (Event.Msg m) w).2.heap = (broadcast m room.Clients w.heap).2 := by
  simp only [World.hubStep, h, handle_Msg_heap]

theorem hubStep_rooms (r : RoomPtr) (e : Event) (w : World) :
    (World.hubStep r e w).2.rooms = w.rooms := by
  unfold World.hubStep
  split <;> rfl

/-- C7. For two distinct rooms of the registry and a client that is a member
of the second and not of the first, the processing of a `Msg` event by the hub
of the first room, however it ends, leaves that client (so what it has received)
as it was, leaves the second room with its membership as it was, leaves the
registry as it was, and changes no client that is not a member of the first
room. -/
theorem room_isolation (w : World) (k1 k2 : String) (r1 r2 : RoomPtr) (room1 room2 : Room)
    (b : ClientPtr) (m : Message)
    (h1 : w.rooms k1 = some r1) (h2 : w.rooms k2 = some r2) (hne : r1 ≠ r2)
    (hs1 : w.store[r1]? = some room1) (hs2 : w.store[r2]? = some room2)
    (_hb2 : b ∈ room2.Clients) (hb1 : b ∉ room1.Clients) :
    (World.hubStep r1 (Event.Msg m) w).2.heap b = w.heap b ∧
      (World.hubStep r1 (Event.Msg m) w).2.store[r2]? = some room2 ∧
      (World.hubStep r1 (Event.Msg m) w).2.rooms k1 = some r1 ∧
      (World.hubStep r1 (Event.Msg m) w).2.rooms k2 = some r2 ∧
      ∀ c, c ∉ room1.Clients → (World.hubStep r1 (Event.Msg m) w).2.heap c = w.heap c := by
  refine ⟨?_, ?_, ?_, ?_, ?_⟩
  · rw [hubStep_Msg_heap r1 m w room1 hs1, broadcast_frame m _ _ b hb1]
  · rw [hubStep_store_other r1 r2 _ w hne, hs2]
  · rw [hubStep_rooms, h1]
  · rw [hubStep_rooms, h2]
  · intro c hc
    rw [hubStep_Msg_heap r1 m w room1 hs1, broadcast_frame m _ _ c hc]

/-- Witness of `room_isolation`: client 1 in room "r1", client 2 in room "r2";
a message broadcast in "r1" reaches client 1 and not client 2. -/
theorem room_isolation_witness :
    (twoRooms.rooms "r1" = some 0 ∧ twoRooms.rooms "r2" = some 1 ∧ (0 : RoomPtr) ≠ 1 ∧
      twoRooms.store[(0 : RoomPtr)]? =
        some { Code := "r1", Clients := [1], nodup := List.nodup_singleton 1 } ∧
      twoRooms.store[(1 : RoomPtr)]? =
        some { Code := "r2", Clients := [2], nodup := List.nodup_singleton 2 } ∧
      (2 : ClientPtr) ∈ [2] ∧ (2 : ClientPtr) ∉ [1]) ∧
    ((World.hubStep 0 (Event.Msg hello) twoRooms).2.heap 1).Send.received = [hello] ∧
    (World.hubStep 0 (Event.Msg hello) twoRooms).2.heap 2 = twoRooms.heap 2 :=
  ⟨⟨by decide, by decide, by decide, rfl, rfl, by decide, by decide⟩, by decide,
    (room_isolation twoRooms "r1" "r2" 0 1
      { Code := "r1", Clients := [1], nodup := List.nodup_singleton 1 }
      { Code := "r2", Clients := [2], nodup := List.nodup_singleton 2 } 2 hello
      (by decide) (by decide) (by decide) rfl rfl (by decide) (by decide)).1⟩

/-! ## Concurrent callers of the registry -/

theorem createRoom_created (code : String) (w0 : World) (h : w0.rooms code = none) :
    createRoom code (createRoom code w0).2 = ((w0.store.length, true), (createRoom code w0).2) := by
  have hr : (createRoom code w0).2.rooms code = some w0.store.length := by
    rw [createRoom_miss code w0 h]; simp
  exact createRoom_hit code _ _ hr

theorem Conc.Inv_init (code : String) (w0 : World) (n : Nat) :
    Conc.Inv code w0 (Conc.init w0 n) := by
  refine ⟨Or.inl rfl, ?_⟩
  intro pc hpc r hr
  have := List.eq_of_mem_replicate hpc
  subst this
  rcases hr with h | ⟨f, h⟩ <;> cases h

theorem Conc.Inv_step (code : String) (w0 : World) (h0 : w0.rooms code = none)
    (s : Conc) (i : Nat) (hinv : Conc.Inv code w0 s) : Conc.Inv code w0 (Conc.step code s i) := by
  obtain ⟨hw, hp⟩ := hinv
  have hr1 : (createRoom code w0).2.rooms code = some w0.store.length := by
    rw [createRoom_miss code w0 h0]; simp
  unfold Conc.step
  split
  · -- the locked lookup
    refine ⟨hw, ?_⟩
    intro pc hpc r hr
    rcases List.mem_or_eq_of_mem_set hpc with hold | hnew
    · exact hp pc hold r hr
    · subst hnew
      rcases hr with h | ⟨f, h⟩
      · have hl : s.world.rooms code = some r := by injection h
        rcases hw with hw | hw
        · rw [hw, h0] at hl; cases hl
        · rw [hw, hr1] at hl
          exact ⟨by injection hl with hl; exact hl.symm, hw⟩
      · cases h
  · -- a hit returns what was read
    rename_i r0 hget
    have hmem : Pc.looked (some r0) ∈ s.pcs := List.getElem?_mem hget
    have hold := hp _ hmem r0 (Or.inl rfl)
    refine ⟨hw, ?_⟩
    intro pc hpc r hr
    rcases List.mem_or_eq_of_mem_set hpc with hin | hnew
    · exact hp pc hin r hr
    · subst hnew
      rcases hr with h | ⟨f, h⟩
      · cases h
      · have : r0 = r := by injection h
        subst this
        exact hold
  · -- a miss enters createRoom
    have hres : (createRoom code s.world).2 = (createRoom code w0).2 ∧
        (createRoom code s.world).1.1 = w0.store.length := by
      rcases hw with hw | hw
      · rw [hw, createRoom_miss code w0 h0]; exact ⟨rfl, rfl⟩
      · rw [hw, createRoom_created code w0 h0]; exact ⟨rfl, rfl⟩
    refine ⟨Or.inr hres.1, ?_⟩
    intro pc hpc r hr
    simp only at hpc
    rcases List.mem_or_eq_of_mem_set hpc with hin | hnew
    · exact ⟨(hp pc hin r hr).1, hres.1⟩
    · subst hnew
      rcases hr with h | ⟨f, h⟩
      · cases h
      · have : (createRoom code s.world).1.1 = r := by injection h
        rw [← this]
        exact ⟨hres.2, hres.1⟩
  · exact ⟨hw, hp⟩

theorem Conc.Inv_run (code : String) (w0 : World) (h0 : w0.rooms code = none)
    (sched : List Nat) :
    ∀ s : Conc, Conc.Inv code w0 s → Conc.Inv code w0 (Conc.run code s sched) := by
  induction sched with
  | nil => intro s h; exact h
  | cons i is ih =>
    intro s h
    exact ih _ (Conc.Inv_step code w0 h0 s i h)

theorem Conc.step_length (code : String) (s : Conc) (i : Nat) :
    (Conc.step code s i).pcs.length = s.pcs.length := by
  unfold Conc.step
  split <;> simp

theorem Conc.run_length (code : String) (sched : List Nat) :
    ∀ s : Conc, (Conc.run code s sched).pcs.length = s.pcs.length := by
  induction sched with
  | nil => intro s; rfl
  | cons i is ih =>
    intro s
    exact (ih _).trans (Conc.step_length code s i)

theorem Conc.step_other (code : String) (s : Conc) (i j : Nat) (h : i ≠ j) :
    (Conc.step code s i).pcs[j]? = s.pcs[j]? := by
  unfold Conc.step
  split <;> simp [List.getElem?_set_ne h]

theorem Conc.step_self (code : String) (s : Conc) (i : Nat) (hi : i < s.pcs.length) :
    min 2 (Pc.stage s.pcs[i]? + 1) ≤ Pc.stage (Conc.step code s i).pcs[i]? := by
  have hsome : ∃ pc, s.pcs[i]? = some pc := ⟨s.pcs[i], List.getElem?_eq_getElem hi⟩
  obtain ⟨pc, hpc⟩ := hsome
  cases pc with
  | atLookup =>
    simp only [Conc.step, hpc, List.getElem?_set_self hi, Pc.stage]
    omega
  | looked x =>
    cases x with
    | none =>
      simp only [Conc.step, hpc, List.getElem?_set_self hi, Pc.stage]
      omega
    | some r =>
      simp only [Conc.step, hpc, List.getElem?_set_self hi, Pc.stage]
      omega
  | returned r f =>
    simp only [Conc.step, hpc, Pc.stage]
    omega

/-- A caller that the schedule lets step twice has returned: each of its steps
takes it one stage further, and no step of another caller moves it. -/
theorem Conc.run_progress (code : String) (i : Nat) (sched : List Nat) :
    ∀ s : Conc, i < s.pcs.length →
      min 2 (Pc.stage s.pcs[i]? + sched.count i) ≤
        Pc.stage (Conc.run code s sched).pcs[i]? := by
  induction sched with
  | nil => intro s _; simp [Conc.run]
  | cons j js ih =>
    intro s hi
    have hi2 : i < (Conc.step code s j).pcs.length := by rw [Conc.step_length]; exact hi
    have h1 := ih (Conc.step code s j) hi2
    have hrun : Conc.run code s (j :: js) = Conc.run code (Conc.step code s j) js := rfl
    rw [hrun]
    by_cases hji : j = i
    · subst hji
      have h2 := Conc.step_self code s j hi
      rw [List.count_cons_self]
      omega
    · rw [Conc.step_other code s j i hji] at h1
      rw [List.count_cons_of_ne (fun h => hji h.symm)]
      exact h1

theorem Pc.stage_two (o : Option Pc) (h : 2 ≤ Pc.stage o) :
    ∃ r found, o = some (Pc.returned r found) := by
  cases o with
  | none => simp [Pc.stage] at h
  | some pc =>
    cases pc with
    | atLookup => simp [Pc.stage] at h
    | looked x => simp [Pc.stage] at h
    | returned r f => exact ⟨r, f, rfl⟩

/-- C5. Let `N ≥ 1` callers run `GetRoom(code)` concurrently on a registry that
does not hold the code, each taking its locked steps as any schedule says.  At
every point of the schedule the process state is the starting state or the
starting state after one creation (one room allocated, one `Run` loop started,
the code registered to it), and a caller that has returned has returned the
created room.  Once all callers have returned, exactly one room has been
created and one loop started, the registry maps the code to that room, and all
`N` callers have returned it; and all callers have returned as soon as the
schedule has let each of them step twice. -/
theorem concurrent_GetRoom_creates_one (code : String) (w0 : World) (N : Nat)
    (sched : List Nat) (hN : 1 ≤ N) (hfresh : w0.rooms code = none) :
    ((Conc.run code (Conc.init w0 N) sched).world = w0 ∨
        (Conc.run code (Conc.init w0 N) sched).world = (createRoom code w0).2) ∧
      (createRoom code w0).2.store = w0.store ++ [NewRoom code] ∧
      (createRoom code w0).2.started = w0.started ++ [w0.store.length] ∧
      (Conc.run code (Conc.init w0 N) sched).pcs.length = N ∧
      (∀ pc ∈ (Conc.run code (Conc.init w0 N) sched).pcs, ∀ r found,
        pc = Pc.returned r found →
          r = w0.store.length ∧
            (Conc.run code (Conc.init w0 N) sched).world.rooms code = some r) ∧
      (Conc.allReturned (Conc.run code (Conc.init w0 N) sched) →
        (Conc.run code (Conc.init w0 N) sched).world.store = w0.store ++ [NewRoom code] ∧
        (Conc.run code (Conc.init w0 N) sched).world.started =
          w0.started ++ [w0.store.length] ∧
        (Conc.run code (Conc.init w0 N) sched).world.rooms code = some w0.store.length ∧
        ∀ pc ∈ (Conc.run code (Conc.init w0 N) sched).pcs,
          ∃ found, pc = Pc.returned w0.store.length found) ∧
      ((∀ i, i < N → 2 ≤ sched.count i) →
        Conc.allReturned (Conc.run code (Conc.init w0 N) sched)) := by
  have hprog : (∀ i, i < N → 2 ≤ sched.count i) →
      Conc.allReturned (Conc.run code (Conc.init w0 N) sched) := by
    intro hfair pc hpc
    obtain ⟨i, hi⟩ := List.mem_iff_getElem?.mp hpc
    have hlen0 : (Conc.init w0 N).pcs.length = N := by simp [Conc.init]
    have hiN : i < N := by
      have h1 : i < (Conc.run code (Conc.init w0 N) sched).pcs.length := by
        by_contra hge
        rw [List.getElem?_eq_none (Nat.le_of_not_lt hge)] at hi
        cases hi
      rw [Conc.run_length, hlen0] at h1
      exact h1
    have h2 := Conc.run_progress code i sched (Conc.init w0 N) (by rw [hlen0]; exact hiN)
    have h3 := hfair i hiN
    have h4 : 2 ≤ Pc.stage (Conc.run code (Conc.init w0 N) sched).pcs[i]? := by omega
    obtain ⟨r, f, h5⟩ := Pc.stage_two _ h4
    rw [hi] at h5
    exact ⟨r, f, by injection h5⟩
  have hinv := Conc.Inv_run code w0 hfresh sched _ (Conc.Inv_init code w0 N)
  have hlen : (Conc.run code (Conc.init w0 N) sched).pcs.length = N := by
    rw [Conc.run_length]; simp [Conc.init]
  have hw1 := createRoom_miss code w0 hfresh
  have hr1 : (createRoom code w0).2.rooms code = some w0.store.length := by
    rw [hw1]; simp
  generalize Conc.run code (Conc.init w0 N) sched = s at hinv hlen hprog ⊢
  obtain ⟨hw, hp⟩ := hinv
  refine ⟨hw, by rw [hw1], by rw [hw1], hlen, ?_, ?_, hprog⟩
  · intro pc hpc r found hpcr
    obtain ⟨h1, h2⟩ := hp pc hpc r (Or.inr ⟨found, hpcr⟩)
    exact ⟨h1, by rw [h2, hr1, h1]⟩
  · intro hall
    have hall2 : ∀ pc ∈ s.pcs, (∃ found, pc = Pc.returned w0.store.length found) ∧
        s.world = (createRoom code w0).2 := by
      intro pc hpc
      obtain ⟨r, found, hpcr⟩ := hall pc hpc
      obtain ⟨h1, h2⟩ := hp pc hpc r (Or.inr ⟨found, hpcr⟩)
      exact ⟨⟨found, by rw [hpcr, h1]⟩, h2⟩
    have hne : s.pcs ≠ [] := by
      intro hnil
      rw [hnil] at hlen
      simp at hlen
      omega
    obtain ⟨pc, hpc⟩ := List.exists_mem_of_ne_nil _ hne
    have hworld := (hall2 pc hpc).2
    refine ⟨by rw [hworld, hw1], by rw [hworld, hw1], by rw [hworld, hr1], ?_⟩
    intro pc1 hpc1
    exact (hall2 pc1 hpc1).1

/-- Two callers on a fresh code, both missing in the locked lookup before
either enters `createRoom`: both return room 0, the first as its creator. -/
theorem concurrent_example :
    (Conc.run "r1" (Conc.init (World.init soundHeap) 2) [0, 1, 0, 1]).pcs =
      [Pc.returned 0 false, Pc.returned 0 true] := by
  decide

/-- Witness of `concurrent_GetRoom_creates_one`: the schedule of
`concurrent_example`. -/
theorem concurrent_GetRoom_creates_one_witness :
    1 ≤ 2 ∧ (World.init soundHeap).rooms "r1" = none ∧
      Conc.allReturned (Conc.run "r1" (Conc.init (World.init soundHeap) 2) [0, 1, 0, 1]) ∧
      (Conc.run "r1" (Conc.init (World.init soundHeap) 2) [0, 1, 0, 1]).world.store =
        (World.init soundHeap).store ++ [NewRoom "r1"] :=
  have hall : Conc.allReturned
      (Conc.run "r1" (Conc.init (World.init soundHeap) 2) [0, 1, 0, 1]) := by
    intro pc hpc
    rw [concurrent_example] at hpc
    simp only [List.mem_cons, List.mem_singleton, List.not_mem_nil, or_false] at hpc
    rcases hpc with h | h
    · exact ⟨0, false, h⟩
    · exact ⟨0, true, h⟩
  ⟨by decide, rfl, hall,
    ((concurrent_GetRoom_creates_one "r1" (World.init soundHeap) 2 [0, 1, 0, 1]
      (by decide) rfl).2.2.2.2.2.1 hall).1⟩

end Chatroom
